import Mathlib

/-!
Verification of the download-cache-and-transcode pipeline of the whatsapp-bot
repository (src/server.js).  The pipeline's resolve operation is the JS
function `download_video(url, filename, fileType)` (server.js lines 921-1078);
the per-command cleanup phase is the `finally` block of the `!ytdl3` / `!ytdl4`
message handlers (server.js lines 2027-2041 and 2177-2191); the title
sanitizer is `sanitizeFilename` (server.js lines 1148-1153).

Modelling conventions:
- A cache directory is a list of file entries (name, size, mtime); the list
  order is the order `fs.readdirSync` returns names in.
- All paths live inside one kind-specific directory, so a file's "path" is
  identified with its basename; `path.join(targetDir, n)` is modelled as `n`.
- The external downloader (`ytdlp.downloadAsync`) and the external transcoder
  (`convertToMp4` / `convertToMp3`) are oracles in an environment record:
  the downloader either fails or deposits a given list of files (overwriting
  by name, as the filesystem does); the transcoder, applied to an input name,
  either fails (leaving the directory unchanged) or succeeds producing the
  output file with a given size and mtime.
- JavaScript string operations (`startsWith`, `includes`, `endsWith`,
  `path.extname(..).toLowerCase()`, `replace(/\.[^.]+$/, "")`) are modelled
  character-exactly on `List Char`.
-/

/-! ## Character-list string operations -/

/-- Boolean test that `p` is a prefix of `l` (char lists). -/
def leadsWith : List Char → List Char → Bool
  | [], _ => true
  | _ :: _, [] => false
  | a :: as, b :: bs => a == b && leadsWith as bs

/-- Boolean test that `pat` occurs as a contiguous subsequence of `l`;
models JavaScript `String.prototype.includes`. -/
def containsSeq (pat : List Char) : List Char → Bool
  | [] => pat.isEmpty
  | c :: cs => leadsWith pat (c :: cs) || containsSeq pat cs

/-- Models JS `s.startsWith(pre)`. -/
def jsStartsWith (s pre : String) : Bool := leadsWith pre.data s.data

/-- Models JS `s.endsWith(suf)`. -/
def jsEndsWith (s suf : String) : Bool := leadsWith suf.data.reverse s.data.reverse

/-- Models JS `s.includes(pat)`. -/
def jsIncludes (s pat : String) : Bool := containsSeq pat.data s.data

/-- Splits a char list on a separator character; always returns at least one
(possibly empty) part. -/
def splitOnChar (sep : Char) : List Char → List (List Char)
  | [] => [[]]
  | c :: cs =>
    let r := splitOnChar sep cs
    if c == sep then [] :: r
    else
      match r with
      | [] => [[c]]
      | h :: t => (c :: h) :: t

/-- Rejoins parts with a dot separator (inverse of `splitOnChar '.'`). -/
def joinDots : List (List Char) → List Char
  | [] => []
  | [l] => l
  | l :: ls => l ++ '.' :: joinDots ls

/-- Models Node `path.extname` on a basename: the final-dot suffix including
the dot, empty when there is no dot or when the only dot is the leading
character of the name. -/
def extnameL (l : List Char) : List Char :=
  let ps := splitOnChar '.' l
  if ps.length < 2 then []
  else if ps.length = 2 ∧ ps.headD [] = [] then []
  else '.' :: ps.getLastD []

/-- Models JS `path.extname(p).toLowerCase()` as used at server.js line 1041. -/
def extLower (s : String) : String := String.mk ((extnameL s.data).map Char.toLower)

/-- Models JS `filename.replace(/\.[^.]+$/, "")` (server.js line 922): removes
a final dot-extension consisting of at least one non-dot character. -/
def stripExt (s : String) : String :=
  let ps := splitOnChar '.' s.data
  if ps.length < 2 then s
  else if ps.getLastD [] = [] then s
  else String.mk (joinDots ps.dropLast)

/-! ## Filename sanitization (server.js lines 1148-1153) -/

/-- JS regex `\w` without the unicode flag: ASCII letters, digits, underscore. -/
def isWordChar (c : Char) : Bool := c.isAlpha || c.isDigit || c == '_'

/-- JS regex `\s`: the whitespace characters matched by JavaScript. -/
def isJsSpace (c : Char) : Bool :=
  c == ' ' || c == '\t' || c == '\n' || c == '\r' ||
  c == Char.ofNat 11 || c == Char.ofNat 12 ||
  c == Char.ofNat 160 || c == Char.ofNat 5760 ||
  (8192 ≤ c.toNat && c.toNat ≤ 8202) ||
  c == Char.ofNat 8232 || c == Char.ofNat 8233 || c == Char.ofNat 8239 ||
  c == Char.ofNat 8287 || c == Char.ofNat 12288 || c == Char.ofNat 65279

/-- First sanitization step: `.replace(/[^\w\s-]/g, "")`. -/
def stripStep (l : List Char) : List Char :=
  l.filter (fun c => isWordChar c || isJsSpace c || c == '-')

/-- Worker for the second step; the flag records whether the previous
character was inside a whitespace run already replaced by an underscore. -/
def collapseAux : Bool → List Char → List Char
  | _, [] => []
  | inRun, c :: cs =>
    if isJsSpace c then
      if inRun then collapseAux true cs else '_' :: collapseAux true cs
    else c :: collapseAux false cs

/-- Second sanitization step: `.replace(/\s+/g, "_")` (each maximal whitespace
run becomes a single underscore). -/
def collapseStep (l : List Char) : List Char := collapseAux false l

/-- Third sanitization step: `.substring(0, 100)`. -/
def truncStep (l : List Char) : List Char := l.take 100

/-- Model of `sanitizeFilename` (server.js lines 1148-1153): the three
replacement steps chained in the source's order. -/
def sanitizeFilename (s : String) : String :=
  String.mk (truncStep (collapseStep (stripStep s.data)))

/-! ## Cache directory model -/

/-- One file of a kind-specific cache directory. -/
structure FileEntry where
  name : String
  size : Nat
  mtime : Nat
deriving DecidableEq, Repr

/-- A cache directory: a flat list of files in readdir order. -/
abbrev Dir := List FileEntry

/-- Models `fs.existsSync` + `fs.statSync`: the first entry with the name. -/
def lookupF (d : Dir) (n : String) : Option FileEntry :=
  d.find? (fun e => e.name == n)

/-- Models `fs.unlinkSync`: removes the entries bearing the name. -/
def unlinkF (d : Dir) (n : String) : Dir := d.filter (fun e => e.name != n)

/-- Models a filesystem write: overwrites any file of the same name. -/
def writeF (d : Dir) (e : FileEntry) : Dir := unlinkF d e.name ++ [e]

/-- The names present in a directory, in readdir order. -/
def namesOf (d : Dir) : List String := d.map (fun e => e.name)

/-- Well-formedness of a directory: names are pairwise distinct, as they are
on a real filesystem. -/
def Wf (d : Dir) : Prop := (namesOf d).Nodup

/-! ## Pipeline environment and outcome -/

/-- External collaborators of one `download_video` run: the global
`ffmpegAvailable` flag, the transcoder oracle (input name to size and mtime of
the produced output, `none` on conversion failure), and the downloader oracle
(`none` when `ytdlp.downloadAsync` rejects, otherwise the files it deposits
into the target directory). -/
structure Env where
  ffmpegAvailable : Bool
  convert : String → Option (Nat × Nat)
  acquire : Option (List FileEntry)

/-- The error kinds `download_video` can throw. -/
inductive DVError where
  | downloadFailed
  | fileNotCreated
  | emptyFile
deriving DecidableEq, Repr

/-- Return value of a `download_video` run. -/
inductive DVResult where
  | ok (p : String)
  | err (e : DVError)
deriving DecidableEq, Repr

/-- Observable outcome of one `download_video` run: the final directory
contents, the returned path or error, and whether the downloader and the
transcoder were invoked (plus whether a conversion failure was logged). -/
structure Outcome where
  dir : Dir
  result : DVResult
  acquired : Bool
  converted : Bool
  convFailLogged : Bool
deriving DecidableEq, Repr

/-! ## The resolve pipeline (server.js lines 921-1078) -/

/-- Filter of the step-3 cache scan (server.js lines 938-947): name starts
with the base title, contains neither ".part" nor ".f", and does not end in
".mp4" nor ".mp3". -/
def isCandidateName (base n : String) : Bool :=
  jsStartsWith n base && !jsIncludes n ".part" && !jsIncludes n ".f" &&
    !jsEndsWith n ".mp4" && !jsEndsWith n ".mp3"

/-- Modelled from the words of claim C4 (for comparison against the source's
`isCandidateName`): the candidate set is said to be the files whose name
starts with the sanitized title, that match no partial-marker pattern, and
that do not already have the target extension of the requested kind, so that
files with the non-target extension of the other kind remain candidates. -/
def claimCandidateName (base targetExt n : String) : Bool :=
  jsStartsWith n base && !(jsIncludes n ".part" || jsIncludes n ".f") &&
    !jsEndsWith n targetExt

/-- Filter of the partial-download cleanup (server.js lines 972-977): name
starts with the base title and contains ".f" or ".part". -/
def isPartialName (base n : String) : Bool :=
  jsStartsWith n base && (jsIncludes n ".f" || jsIncludes n ".part")

/-- Filter of the post-download scan (server.js lines 1022-1027): name starts
with the base title and contains neither ".part" nor ".f". -/
def isDownloadName (base n : String) : Bool :=
  jsStartsWith n base && !jsIncludes n ".part" && !jsIncludes n ".f"

/-- The step-3 candidate list (server.js lines 938-947). -/
def scanCandidates (d : Dir) (base : String) : Dir :=
  d.filter (fun e => isCandidateName base e.name)

/-- The post-download matching list (server.js lines 1022-1027). -/
def dlMatches (d : Dir) (base : String) : Dir :=
  d.filter (fun e => isDownloadName base e.name)

/-- One step of the newest-file selection: keep the candidate with the
strictly larger mtime, preferring the earlier entry on ties. -/
def newerStep (acc : Option FileEntry) (e : FileEntry) : Option FileEntry :=
  match acc with
  | none => some e
  | some b => if b.mtime < e.mtime then some e else acc

/-- The head of the sort at server.js lines 1034-1038: descending stable sort
by mtime, so the first entry of the list achieving the maximal mtime. -/
def newestFirst (l : Dir) : Option FileEntry := l.foldl newerStep none

/-- Steps 6-7 of the pipeline (server.js lines 1021-1077): locate the newest
downloaded file, verify it, then convert / rename / fall back. -/
def afterFetch (env : Env) (d : Dir) (base filePath fileType : String) : Outcome :=
  match newestFirst (dlMatches d base) with
  | none => ⟨d, .err .fileNotCreated, true, false, false⟩
  | some e =>
    if e.size = 0 then ⟨d, .err .emptyFile, true, false, false⟩
    else if env.ffmpegAvailable then
      match env.convert e.name with
      | some (s, m) => ⟨writeF d ⟨filePath, s, m⟩, .ok filePath, true, true, false⟩
      | none => ⟨d, .ok e.name, true, true, true⟩
    else if extLower e.name == ".mp4" && e.name != filePath then
      ⟨writeF (unlinkF d e.name) ⟨filePath, e.size, e.mtime⟩, .ok filePath, true, false, false⟩
    else if extLower e.name == ".mp3" && e.name != filePath then
      ⟨writeF (unlinkF d e.name) ⟨filePath, e.size, e.mtime⟩, .ok filePath, true, false, false⟩
    else ⟨d, .ok e.name, true, false, false⟩

/-- Steps 4-5 of the pipeline (server.js lines 971-1019): delete stale
partial files sharing the title, then invoke the downloader. The `fileType`
argument is threaded through unchanged. -/
def fetchPhase (env : Env) (d : Dir) (base filePath fileType : String) : Outcome :=
  let d1 := d.filter (fun e => !isPartialName base e.name)
  match env.acquire with
  | none => ⟨d1, .err .downloadFailed, true, false, false⟩
  | some files => afterFetch env (files.foldl writeF d1) base filePath fileType

/-- Step 3 of the pipeline (server.js lines 937-969): examine the first
un-transcoded cached original; serve it (converting when possible), or delete
it when empty and fall through to the download. -/
def scanPhase (env : Env) (d : Dir) (base filePath fileType : String) : Outcome :=
  match scanCandidates d base with
  | [] => fetchPhase env d base filePath fileType
  | e :: _ =>
    if 0 < e.size then
      if env.ffmpegAvailable then
        match env.convert e.name with
        | some (s, m) => ⟨writeF d ⟨filePath, s, m⟩, .ok filePath, false, true, false⟩
        | none => ⟨d, .ok e.name, false, true, true⟩
      else ⟨d, .ok e.name, false, false, false⟩
    else fetchPhase env (unlinkF d e.name) base filePath fileType

/-- The expected final path of step 1: `targetDir/<base>.<fileType>`
(server.js lines 922-924), with the directory prefix elided. -/
def canonicalPath (filename fileType : String) : String :=
  stripExt filename ++ "." ++ fileType

/-- The full resolve pipeline `download_video` (server.js lines 921-1078). -/
def download_video (env : Env) (d : Dir) (filename fileType : String) : Outcome :=
  match lookupF d (canonicalPath filename fileType) with
  | some e =>
    if 0 < e.size then ⟨d, .ok (canonicalPath filename fileType), false, false, false⟩
    else
      scanPhase env (unlinkF d (canonicalPath filename fileType)) (stripExt filename)
        (canonicalPath filename fileType) fileType
  | none =>
    scanPhase env d (stripExt filename) (canonicalPath filename fileType) fileType

/-! ## The command handlers' cleanup phase (server.js 2027-2041, 2177-2191) -/

/-- The deletion condition of the handlers' cleanup phase (server.js lines
2032 and 2182): the name contains ".part" or ".temp". -/
def tempPat (n : String) : Bool := jsIncludes n ".part" || jsIncludes n ".temp"

/-- The `finally` block of the `!ytdl3` / `!ytdl4` handlers: snapshot the
directory listing, then unlink every file whose name contains ".part" or
".temp". -/
def handlerCleanup (d : Dir) : Dir :=
  (d.map (fun e => e.name)).foldl
    (fun acc n => if tempPat n then unlinkF acc n else acc)
    d

/-- One `!ytdl3` / `!ytdl4` request around `download_video`: the cleanup phase
runs on the final directory whether the pipeline succeeded or failed. -/
def ytdlRun (env : Env) (d : Dir) (filename fileType : String) : Outcome :=
  let o := download_video env d filename fileType
  { o with dir := handlerCleanup o.dir }

example : sanitizeFilename "My Clip!!" = "My_Clip" := by decide
example : stripExt "t.webm" = "t" := by decide
example : extLower "a.WEBM" = ".webm" := by decide
example : jsIncludes "t.f137.mp4" ".f" = true := by decide
example : isCandidateName "t" "t.mkv" = true := by decide
example : isCandidateName "t" "t.mp3" = false := by decide

/-! ## Helper lemmas: string operations -/

theorem leadsWith_append_self (p r : List Char) : leadsWith p (p ++ r) = true := by
  induction p with
  | nil => rfl
  | cons a as ih => simp [leadsWith, ih]

theorem jsEndsWith_append_dot (s t : String) :
    jsEndsWith (s ++ "." ++ t) ("." ++ t) = true := by
  rw [jsEndsWith, String.data_append, String.data_append]
  simpa [List.reverse_append] using
    leadsWith_append_self (t.data.reverse ++ ['.']) s.data.reverse

theorem canonicalPath_ends_mp4 (f : String) :
    jsEndsWith (canonicalPath f "mp4") ".mp4" = true := by
  have h := jsEndsWith_append_dot (stripExt f) "mp4"
  have he : ("." ++ "mp4" : String) = ".mp4" := by decide
  rw [he] at h
  exact h

theorem canonicalPath_ends_mp3 (f : String) :
    jsEndsWith (canonicalPath f "mp3") ".mp3" = true := by
  have h := jsEndsWith_append_dot (stripExt f) "mp3"
  have he : ("." ++ "mp3" : String) = ".mp3" := by decide
  rw [he] at h
  exact h

/-! ## Helper lemmas: directory model -/

theorem mem_unlinkF {d : Dir} {n : String} {e : FileEntry} :
    e ∈ unlinkF d n ↔ e ∈ d ∧ e.name ≠ n := by
  simp [unlinkF, List.mem_filter]

theorem wf_filter {d : Dir} (p : FileEntry → Bool) (h : Wf d) : Wf (d.filter p) := by
  have hs : List.Sublist ((d.filter p).map (fun e => e.name)) (d.map (fun e => e.name)) :=
    (List.filter_sublist d).map _
  exact List.Nodup.sublist hs h

theorem wf_unlinkF {d : Dir} (n : String) (h : Wf d) : Wf (unlinkF d n) :=
  wf_filter _ h

theorem name_not_mem_unlinkF (d : Dir) (n : String) : n ∉ namesOf (unlinkF d n) := by
  simp [namesOf, unlinkF, List.mem_map, List.mem_filter]

theorem wf_writeF {d : Dir} (e : FileEntry) (h : Wf d) : Wf (writeF d e) := by
  have h1 : Wf (unlinkF d e.name) := wf_unlinkF _ h
  have h2 : namesOf (writeF d e) = namesOf (unlinkF d e.name) ++ [e.name] := by
    simp [writeF, namesOf]
  rw [Wf, h2, List.nodup_append]
  refine ⟨h1, List.nodup_singleton _, ?_⟩
  intro a ha hb
  rw [List.mem_singleton] at hb
  subst hb
  exact name_not_mem_unlinkF d e.name ha

theorem wf_foldl_writeF (fs : List FileEntry) : ∀ d : Dir, Wf d → Wf (fs.foldl writeF d) := by
  induction fs with
  | nil => intro d h; exact h
  | cons f fs ih => intro d h; exact ih _ (wf_writeF f h)

theorem lookupF_unlinkF_self (d : Dir) (n : String) : lookupF (unlinkF d n) n = none := by
  rw [lookupF, List.find?_eq_none]
  intro e he
  rw [mem_unlinkF] at he
  simp [he.2]

theorem lookupF_writeF_self (d : Dir) (e : FileEntry) :
    lookupF (writeF d e) e.name = some e := by
  have h1 : (unlinkF d e.name).find? (fun x => x.name == e.name) = none :=
    lookupF_unlinkF_self d e.name
  simp [writeF, lookupF, List.find?_append, h1, List.find?]

theorem lookupF_of_mem {d : Dir} {e : FileEntry} (hwf : Wf d) (he : e ∈ d) :
    lookupF d e.name = some e := by
  induction d with
  | nil => cases he
  | cons a as ih =>
    have hwf' : (namesOf as).Nodup := (List.nodup_cons.mp hwf).2
    rcases List.mem_cons.mp he with rfl | hmem
    · simp [lookupF, List.find?_cons]
    · have hne : a.name ≠ e.name := by
        intro hEq
        have hm : e.name ∈ namesOf as := List.mem_map.mpr ⟨e, hmem, rfl⟩
        rw [← hEq] at hm
        exact (List.nodup_cons.mp hwf).1 hm
      have htail := ih hwf' hmem
      rw [lookupF] at htail ⊢
      simpa [List.find?_cons, hne] using htail

/-! ## Helper lemmas: newest-file selection -/

theorem newestFoldl_aux (l : Dir) : ∀ b : FileEntry,
    ∃ c, l.foldl newerStep (some b) = some c ∧
      (c = b ∨ c ∈ l) ∧ b.mtime ≤ c.mtime ∧ ∀ x ∈ l, x.mtime ≤ c.mtime := by
  induction l with
  | nil => intro b; exact ⟨b, rfl, Or.inl rfl, le_rfl, by simp⟩
  | cons a as ih =>
    intro b
    by_cases h : b.mtime < a.mtime
    · obtain ⟨c, h1, h2, h3, h4⟩ := ih a
      refine ⟨c, ?_, ?_, ?_, ?_⟩
      · simpa [newerStep, h] using h1
      · rcases h2 with rfl | h2
        · exact Or.inr (List.mem_cons_self _ _)
        · exact Or.inr (List.mem_cons_of_mem _ h2)
      · exact le_trans (le_of_lt h) h3
      · intro x hx
        rcases List.mem_cons.mp hx with rfl | hx
        · exact h3
        · exact h4 x hx
    · obtain ⟨c, h1, h2, h3, h4⟩ := ih b
      refine ⟨c, ?_, ?_, ?_, ?_⟩
      · simpa [newerStep, h] using h1
      · rcases h2 with rfl | h2
        · exact Or.inl rfl
        · exact Or.inr (List.mem_cons_of_mem _ h2)
      · exact h3
      · intro x hx
        rcases List.mem_cons.mp hx with rfl | hx
        · exact le_trans (Nat.le_of_not_lt h) h3
        · exact h4 x hx

theorem newestFirst_spec {l : Dir} {e : FileEntry} (h : newestFirst l = some e) :
    e ∈ l ∧ ∀ x ∈ l, x.mtime ≤ e.mtime := by
  cases l with
  | nil => cases h
  | cons a as =>
    obtain ⟨c, h1, h2, h3, h4⟩ := newestFoldl_aux as a
    rw [newestFirst, List.foldl_cons] at h
    have hstep : newerStep none a = some a := rfl
    rw [hstep] at h
    rw [h1] at h
    have hce : c = e := Option.some.inj h
    subst hce
    constructor
    · rcases h2 with rfl | h2
      · exact List.mem_cons_self _ _
      · exact List.mem_cons_of_mem _ h2
    · intro x hx
      rcases List.mem_cons.mp hx with rfl | hx
      · exact h3
      · exact h4 x hx

/-! ## Helper lemmas: handler cleanup -/

theorem mem_cleanupFold (ns : List String) : ∀ (acc : Dir) (e : FileEntry),
    (e ∈ ns.foldl (fun acc n => if tempPat n then unlinkF acc n else acc) acc ↔
      e ∈ acc ∧ ∀ n ∈ ns, tempPat n = true → e.name ≠ n) := by
  induction ns with
  | nil => intro acc e; simp
  | cons n ns ih =>
    intro acc e
    rw [List.foldl_cons]
    by_cases h : tempPat n = true
    · rw [if_pos h, ih]
      rw [mem_unlinkF]
      constructor
      · rintro ⟨⟨he, hne⟩, hall⟩
        refine ⟨he, ?_⟩
        intro m hm hpm
        rcases List.mem_cons.mp hm with rfl | hm
        · exact hne
        · exact hall m hm hpm
      · rintro ⟨he, hall⟩
        exact ⟨⟨he, hall n (List.mem_cons_self _ _) h⟩,
          fun m hm hpm => hall m (List.mem_cons_of_mem _ hm) hpm⟩
    · rw [if_neg h, ih]
      constructor
      · rintro ⟨he, hall⟩
        refine ⟨he, ?_⟩
        intro m hm hpm
        rcases List.mem_cons.mp hm with rfl | hm
        · exact absurd hpm h
        · exact hall m hm hpm
      · rintro ⟨he, hall⟩
        exact ⟨he, fun m hm hpm => hall m (List.mem_cons_of_mem _ hm) hpm⟩

theorem mem_handlerCleanup {d : Dir} {e : FileEntry} :
    e ∈ handlerCleanup d ↔ e ∈ d ∧ tempPat e.name = false := by
  rw [handlerCleanup, mem_cleanupFold]
  constructor
  · rintro ⟨he, hall⟩
    refine ⟨he, ?_⟩
    cases hq : tempPat e.name
    · rfl
    · exact absurd rfl (hall e.name (List.mem_map.mpr ⟨e, he, rfl⟩) hq)
  · rintro ⟨he, hf⟩
    refine ⟨he, ?_⟩
    intro m hm hpm hEq
    rw [hEq, hpm] at hf
    cases hf

/-! ## Helper lemmas: pipeline phases -/

theorem afterFetch_acquired (env : Env) (d : Dir) (base filePath fileType : String) :
    (afterFetch env d base filePath fileType).acquired = true := by
  rw [afterFetch]
  repeat' split
  all_goals rfl

theorem fetchPhase_acquired (env : Env) (d : Dir) (base filePath fileType : String) :
    (fetchPhase env d base filePath fileType).acquired = true := by
  rw [fetchPhase]
  cases env.acquire
  · rfl
  · exact afterFetch_acquired _ _ _ _ _

theorem scanCandidates_head_prop {d : Dir} {base : String} {e : FileEntry} {rest : Dir}
    (h : scanCandidates d base = e :: rest) : isCandidateName base e.name = true := by
  have hm : e ∈ scanCandidates d base := h ▸ List.mem_cons_self e rest
  exact (List.mem_filter.mp hm).2

theorem candidate_not_target {base n : String} (h : isCandidateName base n = true) :
    jsEndsWith n ".mp4" = false ∧ jsEndsWith n ".mp3" = false := by
  rw [isCandidateName] at h
  simp only [Bool.and_eq_true, Bool.not_eq_true'] at h
  exact ⟨h.1.2, h.2⟩

theorem afterFetch_ok_lookup (env : Env) (d : Dir) (base fp ft : String)
    (hwf : Wf d)
    (hconv : ∀ n s m, env.convert n = some (s, m) → 0 < s)
    (hok : (afterFetch env d base fp ft).result = .ok fp) :
    ∃ e, lookupF (afterFetch env d base fp ft).dir fp = some e ∧ 0 < e.size := by
  cases hnf : newestFirst (dlMatches d base) with
  | none =>
    simp only [afterFetch, hnf] at hok
    exact DVResult.noConfusion hok
  | some e =>
    simp only [afterFetch, hnf] at hok ⊢
    by_cases hz : e.size = 0
    · rw [if_pos hz] at hok
      exact DVResult.noConfusion hok
    · rw [if_neg hz] at hok ⊢
      by_cases hf : env.ffmpegAvailable = true
      · rw [if_pos hf] at hok ⊢
        cases hc : env.convert e.name with
        | some sm =>
          obtain ⟨s, m⟩ := sm
          rw [hc] at hok
          dsimp only at hok ⊢
          exact ⟨⟨fp, s, m⟩, lookupF_writeF_self _ _, hconv _ _ _ hc⟩
        | none =>
          rw [hc] at hok
          dsimp only at hok ⊢
          have hEq : e.name = fp := by
            simpa using hok
          have hmem : e ∈ d := List.mem_of_mem_filter (newestFirst_spec hnf).1
          refine ⟨e, ?_, Nat.pos_of_ne_zero hz⟩
          rw [← hEq]
          exact lookupF_of_mem hwf hmem
      · rw [if_neg hf] at hok ⊢
        by_cases h4 : (extLower e.name == ".mp4" && e.name != fp) = true
        · rw [if_pos h4] at hok ⊢
          exact ⟨⟨fp, e.size, e.mtime⟩, lookupF_writeF_self _ _, Nat.pos_of_ne_zero hz⟩
        · rw [if_neg h4] at hok ⊢
          by_cases h3 : (extLower e.name == ".mp3" && e.name != fp) = true
          · rw [if_pos h3] at hok ⊢
            exact ⟨⟨fp, e.size, e.mtime⟩, lookupF_writeF_self _ _, Nat.pos_of_ne_zero hz⟩
          · rw [if_neg h3] at hok ⊢
            have hEq : e.name = fp := by
              simpa using hok
            have hmem : e ∈ d := List.mem_of_mem_filter (newestFirst_spec hnf).1
            refine ⟨e, ?_, Nat.pos_of_ne_zero hz⟩
            rw [← hEq]
            exact lookupF_of_mem hwf hmem

theorem fetchPhase_ok_lookup (env : Env) (d : Dir) (base fp ft : String)
    (hwf : Wf d)
    (hconv : ∀ n s m, env.convert n = some (s, m) → 0 < s)
    (hok : (fetchPhase env d base fp ft).result = .ok fp) :
    ∃ e, lookupF (fetchPhase env d base fp ft).dir fp = some e ∧ 0 < e.size := by
  cases ha : env.acquire with
  | none =>
    simp only [fetchPhase, ha] at hok
    exact DVResult.noConfusion hok
  | some files =>
    simp only [fetchPhase, ha] at hok ⊢
    exact afterFetch_ok_lookup env _ base fp ft
      (wf_foldl_writeF files _ (wf_filter _ hwf)) hconv hok

theorem scanPhase_ok_lookup (env : Env) (d : Dir) (base fp ft : String)
    (hwf : Wf d)
    (hfp : jsEndsWith fp ".mp4" = true ∨ jsEndsWith fp ".mp3" = true)
    (hconv : ∀ n s m, env.convert n = some (s, m) → 0 < s)
    (hok : (scanPhase env d base fp ft).result = .ok fp) :
    ∃ e, lookupF (scanPhase env d base fp ft).dir fp = some e ∧ 0 < e.size := by
  cases hc : scanCandidates d base with
  | nil =>
    simp only [scanPhase, hc] at hok ⊢
    exact fetchPhase_ok_lookup env d base fp ft hwf hconv hok
  | cons e rest =>
    simp only [scanPhase, hc] at hok ⊢
    by_cases hz : 0 < e.size
    · rw [if_pos hz] at hok ⊢
      by_cases hf : env.ffmpegAvailable = true
      · rw [if_pos hf] at hok ⊢
        cases hcv : env.convert e.name with
        | some sm =>
          obtain ⟨s, m⟩ := sm
          rw [hcv] at hok
          dsimp only at hok ⊢
          exact ⟨⟨fp, s, m⟩, lookupF_writeF_self _ _, hconv _ _ _ hcv⟩
        | none =>
          rw [hcv] at hok
          dsimp only at hok
          have hEq : e.name = fp := by simpa using hok
          have hnt := candidate_not_target (scanCandidates_head_prop hc)
          rcases hfp with h4 | h3
          · have hx := hnt.1
            rw [hEq, h4] at hx
            cases hx
          · have hx := hnt.2
            rw [hEq, h3] at hx
            cases hx
      · rw [if_neg hf] at hok
        have hEq : e.name = fp := by simpa using hok
        have hnt := candidate_not_target (scanCandidates_head_prop hc)
        rcases hfp with h4 | h3
        · have hx := hnt.1
          rw [hEq, h4] at hx
          cases hx
        · have hx := hnt.2
          rw [hEq, h3] at hx
          cases hx
    · rw [if_neg hz] at hok ⊢
      exact fetchPhase_ok_lookup env _ base fp ft (wf_unlinkF _ hwf) hconv hok

theorem download_video_ok_lookup (env : Env) (d : Dir) (f ft : String)
    (hwf : Wf d) (hft : ft = "mp3" ∨ ft = "mp4")
    (hconv : ∀ n s m, env.convert n = some (s, m) → 0 < s)
    (hok : (download_video env d f ft).result = .ok (canonicalPath f ft)) :
    ∃ e, lookupF (download_video env d f ft).dir (canonicalPath f ft) = some e ∧ 0 < e.size := by
  have hfp : jsEndsWith (canonicalPath f ft) ".mp4" = true ∨
      jsEndsWith (canonicalPath f ft) ".mp3" = true := by
    rcases hft with rfl | rfl
    · exact Or.inr (canonicalPath_ends_mp3 f)
    · exact Or.inl (canonicalPath_ends_mp4 f)
  cases hl : lookupF d (canonicalPath f ft) with
  | some e =>
    simp only [download_video, hl] at hok ⊢
    by_cases hz : 0 < e.size
    · rw [if_pos hz] at hok ⊢
      exact ⟨e, hl, hz⟩
    · rw [if_neg hz] at hok ⊢
      exact scanPhase_ok_lookup env _ _ _ ft (wf_unlinkF _ hwf) hfp hconv hok
  | none =>
    simp only [download_video, hl] at hok ⊢
    exact scanPhase_ok_lookup env d _ _ ft hwf hfp hconv hok

/-! ## Helper lemmas: sanitization -/

theorem mem_collapseAux {c : Char} : ∀ (l : List Char) (b : Bool),
    c ∈ collapseAux b l → c = '_' ∨ (c ∈ l ∧ isJsSpace c = false) := by
  intro l
  induction l with
  | nil => intro b h; cases h
  | cons a as ih =>
    intro b h
    rw [collapseAux] at h
    by_cases hs : isJsSpace a = true
    · rw [if_pos hs] at h
      by_cases hb : b = true
      · rw [if_pos hb] at h
        rcases ih true h with h1 | ⟨h2, h3⟩
        · exact Or.inl h1
        · exact Or.inr ⟨List.mem_cons_of_mem _ h2, h3⟩
      · rw [if_neg hb] at h
        rcases List.mem_cons.mp h with rfl | h
        · exact Or.inl rfl
        · rcases ih true h with h1 | ⟨h2, h3⟩
          · exact Or.inl h1
          · exact Or.inr ⟨List.mem_cons_of_mem _ h2, h3⟩
    · rw [if_neg hs] at h
      rcases List.mem_cons.mp h with rfl | h
      · exact Or.inr ⟨List.mem_cons_self _ _, Bool.not_eq_true _ ▸ hs⟩
      · rcases ih false h with h1 | ⟨h2, h3⟩
        · exact Or.inl h1
        · exact Or.inr ⟨List.mem_cons_of_mem _ h2, h3⟩

theorem sanitize_char_allowed {s : String} {c : Char}
    (h : c ∈ (sanitizeFilename s).data) : isWordChar c = true ∨ c = '-' := by
  have h1 : c ∈ collapseStep (stripStep s.data) := by
    have : c ∈ truncStep (collapseStep (stripStep s.data)) := h
    exact List.mem_of_mem_take this
  rcases mem_collapseAux (stripStep s.data) false h1 with h2 | ⟨h2, h3⟩
  · subst h2
    exact Or.inl (by decide)
  · have h4 := (List.mem_filter.mp h2).2
    simp only [Bool.or_eq_true] at h4
    rcases h4 with (hw | hsp) | hd
    · exact Or.inl hw
    · rw [h3] at hsp
      cases hsp
    · exact Or.inr (by simpa using hd)

/-! ## Claim C9 -/

/-- C9 (confirmed): `sanitizeFilename` first strips every character outside
word, whitespace, and hyphen, then collapses each whitespace run to a single
underscore, then truncates to at most 100 characters, in that order; hence
its output has length at most 100 and every output character is a word
character or a hyphen. -/
theorem C9_sanitize_confirmed (s : String) :
    sanitizeFilename s = String.mk (truncStep (collapseStep (stripStep s.data))) ∧
    (sanitizeFilename s).length ≤ 100 ∧
    ∀ c ∈ (sanitizeFilename s).data, isWordChar c = true ∨ c = '-' := by
  refine ⟨rfl, ?_, fun c hc => sanitize_char_allowed hc⟩
  show (truncStep (collapseStep (stripStep s.data))).length ≤ 100
  rw [truncStep, List.length_take]
  exact min_le_left _ _

/-- Witness for C9 at a concrete input, discharging the membership
hypothesis of the character property. -/
theorem C9_witness :
    ('M' ∈ (sanitizeFilename "My Clip!!").data) ∧ (isWordChar 'M' = true ∨ 'M' = '-') :=
  ⟨by decide, (C9_sanitize_confirmed "My Clip!!").2.2 'M' (by decide)⟩

/-! ## Claim C10 -/

/-- C10 (confirmed): after the finally-phase cleanup of a `!ytdl3` / `!ytdl4`
request, a file remains in the cache directory exactly when it was there
before and its name contains neither ".part" nor ".temp"; the deletion is
independent of the requested title, and no file outside those two patterns is
deleted. -/
theorem C10_cleanup_confirmed (d : Dir) (e : FileEntry) :
    e ∈ handlerCleanup d ↔
      e ∈ d ∧ ¬(jsIncludes e.name ".part" = true ∨ jsIncludes e.name ".temp" = true) := by
  rw [mem_handlerCleanup]
  constructor
  · rintro ⟨he, hp⟩
    refine ⟨he, ?_⟩
    rw [tempPat, Bool.or_eq_false_iff] at hp
    simp [hp.1, hp.2]
  · rintro ⟨he, hp⟩
    refine ⟨he, ?_⟩
    rw [tempPat, Bool.or_eq_false_iff]
    rw [not_or] at hp
    exact ⟨Bool.not_eq_true _ ▸ hp.1, Bool.not_eq_true _ ▸ hp.2⟩

/-! ## Claim C4 -/

/-- C4 counterexample: the claim's candidate predicate (for kind VIDEO, target
extension ".mp4") accepts the other-kind file "t.mp3", but the source's scan
filter rejects it, and the step-3 candidate list of a directory holding only
"t.mp3" is empty: the code excludes both ".mp4" and ".mp3" regardless of the
requested kind. -/
theorem C4_counterexample :
    claimCandidateName "t" ".mp4" "t.mp3" = true ∧
    isCandidateName "t" "t.mp3" = false ∧
    scanCandidates [⟨"t.mp3", 5, 0⟩] "t" = [] := by decide

/-- C4 (amended): the step-3 candidate set is exactly the files of the cache
directory whose name starts with the title, contains neither ".part" nor
".f", and ends in neither ".mp4" nor ".mp3" — both container extensions are
excluded whatever the requested kind. -/
theorem C4_scan_amended (d : Dir) (base : String) (e : FileEntry) :
    e ∈ scanCandidates d base ↔
      e ∈ d ∧ jsStartsWith e.name base = true ∧ jsIncludes e.name ".part" = false ∧
        jsIncludes e.name ".f" = false ∧ jsEndsWith e.name ".mp4" = false ∧
        jsEndsWith e.name ".mp3" = false := by
  simp only [scanCandidates, List.mem_filter, isCandidateName, Bool.and_eq_true,
    Bool.not_eq_true', and_assoc]

/-! ## Claim C7 -/

/-- C7 (confirmed): after a successful acquisition, the pipeline locates the
newest-by-mtime file among the cache entries that match the title prefix and
are not partial markers; when no such file exists it fails with the
file-not-created error, and when the located file has size 0 it fails with
the empty-file error. -/
theorem C7_post_fetch_confirmed (env : Env) (d : Dir) (base filePath fileType : String) :
    (dlMatches d base = [] →
      (afterFetch env d base filePath fileType).result = .err .fileNotCreated) ∧
    ∀ e, newestFirst (dlMatches d base) = some e →
      (e ∈ dlMatches d base ∧ ∀ x ∈ dlMatches d base, x.mtime ≤ e.mtime) ∧
      (e.size = 0 → (afterFetch env d base filePath fileType).result = .err .emptyFile) := by
  constructor
  · intro h
    simp [afterFetch, h, newestFirst]
  · intro e hnf
    refine ⟨newestFirst_spec hnf, ?_⟩
    intro hz
    simp [afterFetch, hnf, hz]

/-- Witness for C7 at concrete inputs: an acquisition that produced nothing
matching the title yields the file-not-created error, and one that produced
only an empty file yields the empty-file error. -/
theorem C7_witness :
    (afterFetch ⟨false, fun _ => none, none⟩ [] "t" "t.mp4" "mp4").result =
        .err .fileNotCreated ∧
    (afterFetch ⟨false, fun _ => none, none⟩ [⟨"t.webm", 0, 1⟩] "t" "t.mp4" "mp4").result =
        .err .emptyFile :=
  ⟨(C7_post_fetch_confirmed ⟨false, fun _ => none, none⟩ [] "t" "t.mp4" "mp4").1 (by decide),
   ((C7_post_fetch_confirmed ⟨false, fun _ => none, none⟩ [⟨"t.webm", 0, 1⟩] "t" "t.mp4"
      "mp4").2 ⟨"t.webm", 0, 1⟩ (by decide)).2 (by decide)⟩

/-! ## Claim C6 -/

/-- C6 (confirmed): when the expected final path holds a zero-byte file and no
other file of the cache directory shares the title prefix, the pipeline
deletes the zero-byte file and proceeds to the acquisition phase (so the
downloader is invoked) instead of returning the cached path. -/
theorem C6_zero_byte_confirmed (env : Env) (d : Dir) (f ft : String) (e : FileEntry)
    (hlk : lookupF d (canonicalPath f ft) = some e)
    (hz : e.size = 0)
    (honly : ∀ x ∈ d, jsStartsWith x.name (stripExt f) = true →
      x.name = canonicalPath f ft) :
    (download_video env d f ft).acquired = true ∧
    download_video env d f ft =
      fetchPhase env (unlinkF d (canonicalPath f ft)) (stripExt f)
        (canonicalPath f ft) ft := by
  have hnpos : ¬ 0 < e.size := by omega
  have hcands : scanCandidates (unlinkF d (canonicalPath f ft)) (stripExt f) = [] := by
    rw [scanCandidates, List.filter_eq_nil_iff]
    intro x hx
    rw [mem_unlinkF] at hx
    intro hcand
    have hsw : jsStartsWith x.name (stripExt f) = true := by
      rw [isCandidateName] at hcand
      simp only [Bool.and_eq_true] at hcand
      exact hcand.1.1.1.1
    exact hx.2 (honly x hx.1 hsw)
  have hdv : download_video env d f ft =
      scanPhase env (unlinkF d (canonicalPath f ft)) (stripExt f)
        (canonicalPath f ft) ft := by
    simp only [download_video, hlk, if_neg hnpos]
  have hsp : scanPhase env (unlinkF d (canonicalPath f ft)) (stripExt f)
      (canonicalPath f ft) ft =
      fetchPhase env (unlinkF d (canonicalPath f ft)) (stripExt f)
        (canonicalPath f ft) ft := by
    simp only [scanPhase, hcands]
  rw [hdv, hsp]
  exact ⟨fetchPhase_acquired _ _ _ _ _, rfl⟩

/-- Witness for C6 at a concrete input: a directory holding only a zero-byte
"t.mp4" leads to an acquisition attempt. -/
theorem C6_witness :
    lookupF [⟨"t.mp4", 0, 0⟩] (canonicalPath "t" "mp4") = some ⟨"t.mp4", 0, 0⟩ ∧
    (download_video ⟨false, fun _ => none, none⟩ [⟨"t.mp4", 0, 0⟩] "t" "mp4").acquired =
      true :=
  ⟨by decide,
   (C6_zero_byte_confirmed ⟨false, fun _ => none, none⟩ [⟨"t.mp4", 0, 0⟩] "t" "mp4"
      ⟨"t.mp4", 0, 0⟩ (by decide) rfl (by decide)).1⟩

/-! ## Claim C5 -/

/-- C5 counterexample: a request whose acquisition deposited only the
download-fragment file "t.f1.webm" (a partial marker for title "t" by the
pipeline's own pattern, since it contains ".f") ends with that file still in
the cache directory after the finally-phase cleanup, because the cleanup only
removes names containing ".part" or ".temp". -/
theorem C5_counterexample :
    (ytdlRun ⟨false, fun _ => none, some [⟨"t.f1.webm", 3, 1⟩]⟩ [] "t" "mp4").acquired =
        true ∧
    (⟨"t.f1.webm", 3, 1⟩ : FileEntry) ∈
      (ytdlRun ⟨false, fun _ => none, some [⟨"t.f1.webm", 3, 1⟩]⟩ [] "t" "mp4").dir ∧
    isPartialName "t" "t.f1.webm" = true := by decide

/-- C5 (amended): the finally-phase cleanup runs on the pipeline's final
directory whether the pipeline succeeded or failed, and after it no file
whose name contains ".part" or ".temp" remains (regardless of title); files
marked only by the ".f" fragment pattern are not removed by this phase. -/
theorem C5_cleanup_amended (env : Env) (d : Dir) (f ft : String) :
    (ytdlRun env d f ft).dir = handlerCleanup (download_video env d f ft).dir ∧
    ∀ e ∈ (ytdlRun env d f ft).dir,
      jsIncludes e.name ".part" = false ∧ jsIncludes e.name ".temp" = false := by
  refine ⟨rfl, ?_⟩
  intro e he
  have hm : e ∈ handlerCleanup (download_video env d f ft).dir := he
  rw [mem_handlerCleanup] at hm
  have hp := hm.2
  rw [tempPat, Bool.or_eq_false_iff] at hp
  exact hp

/-- Witness for C5 at a concrete input: a file without the ".part" / ".temp"
patterns survives a failed request and indeed carries neither pattern. -/
theorem C5_witness :
    ((⟨"a.txt", 1, 0⟩ : FileEntry) ∈
      (ytdlRun ⟨false, fun _ => none, none⟩ [⟨"a.txt", 1, 0⟩] "t" "mp4").dir) ∧
    (jsIncludes "a.txt" ".part" = false ∧ jsIncludes "a.txt" ".temp" = false) :=
  ⟨by decide,
   (C5_cleanup_amended ⟨false, fun _ => none, none⟩ [⟨"a.txt", 1, 0⟩] "t" "mp4").2
      ⟨"a.txt", 1, 0⟩ (by decide)⟩

/-! ## Claim C3 -/

/-- C3 counterexample: the directory holds the valid original "t.mkv" with a
non-target extension, the transcoder is available and its conversion of that
file fails, yet resolve does not return the original's path: the scan only
examines the first candidate "t.avi", finds it empty, deletes it, and falls
through to the downloader, which fails, so the whole call fails. -/
theorem C3_counterexample :
    ((⟨"t.mkv", 5, 0⟩ : FileEntry) ∈ ([⟨"t.avi", 0, 0⟩, ⟨"t.mkv", 5, 0⟩] : Dir)) ∧
    isCandidateName "t" "t.mkv" = true ∧
    (⟨true, fun _ => none, none⟩ : Env).ffmpegAvailable = true ∧
    (⟨true, fun _ => none, none⟩ : Env).convert "t.mkv" = none ∧
    (download_video ⟨true, fun _ => none, none⟩ [⟨"t.avi", 0, 0⟩, ⟨"t.mkv", 5, 0⟩]
        "t" "mp4").result = .err .downloadFailed := by
  exact ⟨by decide, by decide, rfl, rfl, by decide⟩

/-- C3 (amended): when the expected final path is absent, the first candidate
the cache scan finds is a valid (size > 0) un-transcoded original, the
transcoder is available, and its conversion of that file fails, resolve
returns that original's path instead of failing, logs the conversion failure,
and performs no acquisition. -/
theorem C3_fallback_amended (env : Env) (d : Dir) (f ft : String) (e : FileEntry)
    (rest : Dir)
    (hmiss : lookupF d (canonicalPath f ft) = none)
    (hc : scanCandidates d (stripExt f) = e :: rest)
    (hsz : 0 < e.size)
    (hff : env.ffmpegAvailable = true)
    (hcv : env.convert e.name = none) :
    (download_video env d f ft).result = .ok e.name ∧
    (download_video env d f ft).convFailLogged = true ∧
    (download_video env d f ft).acquired = false := by
  simp [download_video, hmiss, scanPhase, hc, if_pos hsz, if_pos hff, hcv]

/-- Witness for C3 at a concrete input: a cached "t.webm" with a failing
converter is served as-is. -/
theorem C3_witness :
    scanCandidates [⟨"t.webm", 5, 0⟩] (stripExt "t") = [⟨"t.webm", 5, 0⟩] ∧
    (download_video ⟨true, fun _ => none, none⟩ [⟨"t.webm", 5, 0⟩] "t" "mp4").result =
        .ok "t.webm" ∧
    (download_video ⟨true, fun _ => none, none⟩ [⟨"t.webm", 5, 0⟩] "t" "mp4").acquired =
        false := by
  have h := C3_fallback_amended ⟨true, fun _ => none, none⟩ [⟨"t.webm", 5, 0⟩] "t" "mp4"
    ⟨"t.webm", 5, 0⟩ [] (by decide) (by decide) (by decide) rfl rfl
  exact ⟨by decide, h.1, h.2.2⟩

/-! ## Claim C2 -/

/-- C2 counterexample: the acquisition deposits "t.mp4", which already bears
the target extension for kind mp4, yet the pipeline invokes the transcoder,
because the rename short-circuit of server.js lines 1065-1074 is only
reachable when ffmpeg is unavailable; with ffmpeg available the code at lines
1054-1063 converts unconditionally. -/
theorem C2_counterexample :
    extLower "t.mp4" = ".mp4" ∧
    (download_video ⟨true, fun _ => some (7, 2), some [⟨"t.mp4", 5, 1⟩]⟩ [] "t"
        "mp4").acquired = true ∧
    (download_video ⟨true, fun _ => some (7, 2), some [⟨"t.mp4", 5, 1⟩]⟩ [] "t"
        "mp4").converted = true := by decide

/-- C2 (amended): when the transcoder is unavailable and the file located
after acquisition already bears the target extension, no transcoder call
occurs; the file is renamed to the canonical path when its name differs (and
kept in place when it already is the canonical path), and the canonical path
is returned and present in the directory. -/
theorem C2_rename_amended (env : Env) (d : Dir) (base filePath fileType : String)
    (e : FileEntry)
    (hff : env.ffmpegAvailable = false)
    (hnf : newestFirst (dlMatches d base) = some e)
    (hsz : e.size ≠ 0)
    (hext : extLower e.name = "." ++ fileType)
    (hft : fileType = "mp3" ∨ fileType = "mp4") :
    (afterFetch env d base filePath fileType).result = .ok filePath ∧
    (afterFetch env d base filePath fileType).converted = false ∧
    filePath ∈ namesOf (afterFetch env d base filePath fileType).dir := by
  have hmem : e ∈ d := List.mem_of_mem_filter (newestFirst_spec hnf).1
  have hffn : ¬ env.ffmpegAvailable = true := by simp [hff]
  simp only [afterFetch, hnf]
  rw [if_neg hsz, if_neg hffn]
  rcases hft with rfl | rfl
  · have hm3 : extLower e.name = ".mp3" := by rw [hext]; decide
    have hc4 : ¬ ((extLower e.name == ".mp4" && e.name != filePath) = true) := by
      rw [hm3]
      simp [show ((".mp3" : String) == ".mp4") = false from by decide]
    rw [if_neg hc4]
    by_cases hnp : e.name = filePath
    · have hc3 : ¬ ((extLower e.name == ".mp3" && e.name != filePath) = true) := by
        rw [hnp]
        simp
      rw [if_neg hc3]
      refine ⟨by rw [hnp], rfl, ?_⟩
      rw [← hnp]
      exact List.mem_map.mpr ⟨e, hmem, rfl⟩
    · have hc3 : (extLower e.name == ".mp3" && e.name != filePath) = true := by
        rw [hm3]
        simp [hnp]
      rw [if_pos hc3]
      refine ⟨rfl, rfl, ?_⟩
      simp [writeF, namesOf]
  · have hm4 : extLower e.name = ".mp4" := by rw [hext]; decide
    by_cases hnp : e.name = filePath
    · have hc4 : ¬ ((extLower e.name == ".mp4" && e.name != filePath) = true) := by
        rw [hnp]
        simp
      rw [if_neg hc4]
      have hc3 : ¬ ((extLower e.name == ".mp3" && e.name != filePath) = true) := by
        rw [hnp]
        simp
      rw [if_neg hc3]
      refine ⟨by rw [hnp], rfl, ?_⟩
      rw [← hnp]
      exact List.mem_map.mpr ⟨e, hmem, rfl⟩
    · have hc4 : (extLower e.name == ".mp4" && e.name != filePath) = true := by
        rw [hm4]
        simp [hnp]
      rw [if_pos hc4]
      refine ⟨rfl, rfl, ?_⟩
      simp [writeF, namesOf]

/-- Witness for C2 at a concrete input: with ffmpeg unavailable the acquired
"tx.mp4" is renamed to the canonical "t.mp4" and served without conversion. -/
theorem C2_witness :
    newestFirst (dlMatches [⟨"tx.mp4", 4, 3⟩] "t") = some ⟨"tx.mp4", 4, 3⟩ ∧
    (afterFetch ⟨false, fun _ => none, none⟩ [⟨"tx.mp4", 4, 3⟩] "t" "t.mp4" "mp4").result =
        .ok "t.mp4" ∧
    (afterFetch ⟨false, fun _ => none, none⟩ [⟨"tx.mp4", 4, 3⟩] "t" "t.mp4"
        "mp4").converted = false := by
  have h := C2_rename_amended ⟨false, fun _ => none, none⟩ [⟨"tx.mp4", 4, 3⟩] "t" "t.mp4"
    "mp4" ⟨"tx.mp4", 4, 3⟩ rfl (by decide) (by decide) (by decide) (Or.inr rfl)
  exact ⟨by decide, h.1, h.2.1⟩

/-! ## Well-formedness preservation (for claim C8) -/

theorem wf_afterFetch (env : Env) (d : Dir) (base fp ft : String) (hwf : Wf d) :
    Wf (afterFetch env d base fp ft).dir := by
  rw [afterFetch]
  repeat' split
  all_goals
    first
      | exact hwf
      | exact wf_writeF _ hwf
      | exact wf_writeF _ (wf_unlinkF _ hwf)

theorem wf_fetchPhase (env : Env) (d : Dir) (base fp ft : String) (hwf : Wf d) :
    Wf (fetchPhase env d base fp ft).dir := by
  rw [fetchPhase]
  cases env.acquire with
  | none => exact wf_filter _ hwf
  | some files =>
    exact wf_afterFetch _ _ _ _ _ (wf_foldl_writeF files _ (wf_filter _ hwf))

theorem wf_scanPhase (env : Env) (d : Dir) (base fp ft : String) (hwf : Wf d) :
    Wf (scanPhase env d base fp ft).dir := by
  rw [scanPhase]
  cases hc : scanCandidates d base with
  | nil => exact wf_fetchPhase _ _ _ _ _ hwf
  | cons e rest =>
    dsimp only
    repeat' split
    all_goals
      first
        | exact hwf
        | exact wf_writeF _ hwf
        | exact wf_fetchPhase _ _ _ _ _ (wf_unlinkF _ hwf)

theorem wf_download_video (env : Env) (d : Dir) (f ft : String) (hwf : Wf d) :
    Wf (download_video env d f ft).dir := by
  rw [download_video]
  cases hl : lookupF d (canonicalPath f ft) with
  | none => exact wf_scanPhase _ _ _ _ _ hwf
  | some e =>
    dsimp only
    split
    · exact hwf
    · exact wf_scanPhase _ _ _ _ _ (wf_unlinkF _ hwf)

theorem wf_count_le_one {d : Dir} (hwf : Wf d) (n : String) :
    (d.filter (fun e => e.name == n)).length ≤ 1 := by
  induction d with
  | nil => simp
  | cons a as ih =>
    have hwf2 : (a.name :: namesOf as).Nodup := hwf
    have hwf' : Wf as := (List.nodup_cons.mp hwf2).2
    by_cases h : a.name = n
    · have htail : as.filter (fun e => e.name == n) = [] := by
        rw [List.filter_eq_nil_iff]
        intro x hx hbeq
        have hxn : x.name = n := by simpa using hbeq
        have hmm : a.name ∈ namesOf as := by
          rw [h, ← hxn]
          exact List.mem_map.mpr ⟨x, hx, rfl⟩
        exact (List.nodup_cons.mp hwf2).1 hmm
      rw [List.filter_cons, if_pos (by simpa using h), htail]
      exact le_rfl
    · rw [List.filter_cons, if_neg (by simpa using h)]
      exact ih hwf'

/-! ## Claim C8 -/

/-- C8 counterexample: starting from an empty cache, one successful resolve
run (download of "t.webm", then successful conversion) leaves both "t.webm"
and "t.mp4" in the kind's cache directory — two distinct completed media
files with size > 0, both matching title "t" and neither a partial marker —
because the pipeline never deletes the un-transcoded original after a
successful conversion; so more than one valid artifact for (title, kind)
exists, contradicting the claimed invariant. -/
theorem C8_counterexample :
    (⟨"t.webm", 5, 1⟩ : FileEntry) ∈
      (download_video ⟨true, fun _ => some (7, 2), some [⟨"t.webm", 5, 1⟩]⟩ [] "t"
        "mp4").dir ∧
    (⟨"t.mp4", 7, 2⟩ : FileEntry) ∈
      (download_video ⟨true, fun _ => some (7, 2), some [⟨"t.webm", 5, 1⟩]⟩ [] "t"
        "mp4").dir ∧
    jsStartsWith "t.webm" "t" = true ∧ jsStartsWith "t.mp4" "t" = true ∧
    isPartialName "t" "t.webm" = false ∧ isPartialName "t" "t.mp4" = false ∧
    (0 : Nat) < 5 ∧ (0 : Nat) < 7 ∧ ("t.webm" : String) ≠ "t.mp4" := by decide

/-- C8 (amended): what the resolve algorithm does preserve is uniqueness of
file names: every step maps a directory with pairwise-distinct names to a
directory with pairwise-distinct names, so at most one file at the canonical
path (and at most one file of any given name) exists at any time; it does not
prevent an un-transcoded original from coexisting with the canonical
artifact for the same title. -/
theorem C8_at_most_one_amended (env : Env) (d : Dir) (f ft : String) (hwf : Wf d) :
    Wf (download_video env d f ft).dir ∧
    ∀ n, ((download_video env d f ft).dir.filter (fun e => e.name == n)).length ≤ 1 := by
  have h := wf_download_video env d f ft hwf
  exact ⟨h, fun n => wf_count_le_one h n⟩

/-- Witness for C8 at a concrete input. -/
theorem C8_witness :
    Wf ([⟨"a", 1, 0⟩] : Dir) ∧
    ((download_video ⟨false, fun _ => none, none⟩ [⟨"a", 1, 0⟩] "t" "mp4").dir.filter
        (fun e => e.name == "t.mp4")).length ≤ 1 :=
  ⟨by unfold Wf; decide,
   (C8_at_most_one_amended ⟨false, fun _ => none, none⟩ [⟨"a", 1, 0⟩] "t" "mp4"
      (by unfold Wf; decide)).2 "t.mp4"⟩

/-! ## Claim C1 -/

theorem download_video_cache_hit (env : Env) (d : Dir) (f ft : String) (e : FileEntry)
    (hl : lookupF d (canonicalPath f ft) = some e) (hs : 0 < e.size) :
    download_video env d f ft = ⟨d, .ok (canonicalPath f ft), false, false, false⟩ := by
  simp only [download_video, hl, if_pos hs]

/-- C1 counterexample: from a cache directory holding a zero-byte "t.avi"
followed by a valid "t.mkv", a first resolve call for title "t" succeeds and
returns "t.webm" (it deletes the empty first candidate, downloads "t.webm"
and, with ffmpeg unavailable, returns the downloaded file), but a second call
with identical arguments and unchanged external behaviour returns "t.mkv",
the first remaining scan candidate — a different path, refuting the claimed
idempotence. -/
theorem C1_counterexample :
    (download_video ⟨false, fun _ => none, some [⟨"t.webm", 10, 9⟩]⟩
        [⟨"t.avi", 0, 0⟩, ⟨"t.mkv", 5, 0⟩] "t" "mp4").result = .ok "t.webm" ∧
    (download_video ⟨false, fun _ => none, some [⟨"t.webm", 10, 9⟩]⟩
        (download_video ⟨false, fun _ => none, some [⟨"t.webm", 10, 9⟩]⟩
          [⟨"t.avi", 0, 0⟩, ⟨"t.mkv", 5, 0⟩] "t" "mp4").dir "t" "mp4").result =
      .ok "t.mkv" ∧
    ("t.mkv" : String) ≠ "t.webm" := by decide

/-- C1 (amended): when the first resolve call succeeds and returns the
canonical path P = title.ext(kind) (the cache-hit, conversion-success and
rename outcomes), a second call with identical arguments and no intervening
external state change returns the same path P and performs no acquisition;
the hypotheses require distinct initial file names and a transcoder whose
successful outputs are non-empty. -/
theorem C1_second_call_amended (env : Env) (d : Dir) (f ft : String)
    (hwf : Wf d)
    (hft : ft = "mp3" ∨ ft = "mp4")
    (hconv : ∀ n s m, env.convert n = some (s, m) → 0 < s)
    (hok : (download_video env d f ft).result = .ok (canonicalPath f ft)) :
    (download_video env (download_video env d f ft).dir f ft).result =
        .ok (canonicalPath f ft) ∧
    (download_video env (download_video env d f ft).dir f ft).acquired = false := by
  obtain ⟨e, hl, hs⟩ := download_video_ok_lookup env d f ft hwf hft hconv hok
  rw [download_video_cache_hit env _ f ft e hl hs]
  exact ⟨rfl, rfl⟩

/-- Witness for C1 at a concrete input: the first call downloads "t.mp4",
returns the canonical path, and the second call serves it from cache without
acquisition. -/
theorem C1_witness :
    (download_video ⟨false, fun _ => none, some [⟨"t.mp4", 5, 1⟩]⟩ [] "t" "mp4").result =
        .ok (canonicalPath "t" "mp4") ∧
    (download_video ⟨false, fun _ => none, some [⟨"t.mp4", 5, 1⟩]⟩
        (download_video ⟨false, fun _ => none, some [⟨"t.mp4", 5, 1⟩]⟩ [] "t"
          "mp4").dir "t" "mp4").result = .ok (canonicalPath "t" "mp4") ∧
    (download_video ⟨false, fun _ => none, some [⟨"t.mp4", 5, 1⟩]⟩
        (download_video ⟨false, fun _ => none, some [⟨"t.mp4", 5, 1⟩]⟩ [] "t"
          "mp4").dir "t" "mp4").acquired = false := by
  have h := C1_second_call_amended ⟨false, fun _ => none, some [⟨"t.mp4", 5, 1⟩]⟩ [] "t"
    "mp4" (by unfold Wf; decide) (Or.inr rfl) (fun n s m hx => by simp at hx) (by decide)
  exact ⟨by decide, h.1, h.2⟩
